import Mathlib

/-!
Verification of the style-structure synthesis core of the `tailwindcssinjs`
repository (`src/packages/macro/src/macro.ts`): the rule extractor
(`getStyleObjectFromTwObject`), the merge step of
`transformTwClassesToStyleObject`, and the canonical ordering pass
(`sortStyleObject`).

Modelling conventions:
* JavaScript objects holding style structures are modelled as ordered
  association lists `List (String × SValue)`; `Object.entries` /
  `Object.fromEntries` are the identity on this representation.
* Values are modelled by the inductive `SValue`: strings, arrays of strings,
  nested structures, and numbers (numbers only occur as malformed input and
  exercise the classification failure path).
* Exceptions are modelled with `Except String`.
* The external `timsort` package is modelled by `smallSort`, a faithful
  transcription of the code path that package takes for arrays shorter than
  its MIN_MERGE threshold of 32 (ascending/descending run detection followed
  by binary insertion sort).  This matters because the comparator in
  `sortStyleObject` is not antisymmetric (see `cmpEntries`), so the exact
  comparisons the library performs decide the output; on that code path the
  library only ever branches on `compare(a, b) < 0`.
* The external `lodash` `merge` is modelled by `mergeEntries` following its
  documented deep-merge semantics (plain objects merge recursively, arrays
  merge index-wise, other values are overridden by assignment).
* `unescapeCSS` (from `./parseTwSelector`, repository code not included under
  `src/`) is treated per the spec as a supplied pure function and appears as
  a parameter `u` throughout.
-/

namespace Tw

/-- JavaScript `String.prototype.startsWith`, computed on character lists. -/
def hasPrefixStr (s p : String) : Bool := p.toList.isPrefixOf s.toList

/-- JavaScript `String.prototype.includes` for a single character. -/
def strContainsChar (s : String) (c : Char) : Bool := s.toList.contains c

/-- Style-structure values as produced by the extraction pipeline: a plain
string declaration value, an array of string values, a nested structure
(rule or at-rule body), or a stray number (representable malformed input). -/
inductive SValue where
  | str : String → SValue
  | strArr : List String → SValue
  | obj : List (String × SValue) → SValue
  | num : Int → SValue

/-- Classification kinds returned by `getValueType` inside `sortStyleObject`. -/
inductive VKind where
  | declVariable : VKind
  | decl : VKind
  | declArray : VKind
  | atRule : VKind
  | rule : VKind
deriving DecidableEq

/-- Transcription of `getValueType` from `sortStyleObject` (macro.ts 278-299):
string values are `decl` (or `declVariable` when the key starts with the
custom-property marker `--`); object values are `declArray` for arrays,
`atRule` for keys starting with `@`, `rule` for keys containing `&`; every
other combination throws. -/
def getValueType (key : String) (value : SValue) : Except String VKind :=
  match value with
  | .str _ => if hasPrefixStr key "--" then .ok .declVariable else .ok .decl
  | .strArr _ => .ok .declArray
  | .obj _ =>
      if hasPrefixStr key "@" then .ok .atRule
      else if strContainsChar key '&' then .ok .rule
      else .error ("This type: object of value: " ++ key ++ " is not supported")
  | .num _ => .error "This type: number of value is not supported"

/-- Model of `parseInt(key.replace(/[^0-9]*/g, ""))`: all digit characters of
the key concatenated and parsed, `none` when the key has no digits (JS NaN). -/
def stripToNumber (s : String) : Option Nat :=
  let ds := s.toList.filter Char.isDigit
  if ds.isEmpty then none
  else some (ds.foldl (fun n c => n * 10 + (c.toNat - 48)) 0)

/-- JavaScript `<` on the extracted at-rule numbers: any comparison with NaN
(`none`) is false. -/
def jsNumLt : Option Nat → Option Nat → Bool
  | some a, some b => a < b
  | _, _ => false

/-- Decl-family test: the source checks `valueType.startsWith("decl")`. -/
def isDeclKind : VKind → Bool
  | .declVariable => true
  | .decl => true
  | .declArray => true
  | _ => false

/-- Test for the `declVariable` classification (`=== "declVariable"`). -/
def isVarKind : VKind → Bool
  | .declVariable => true
  | _ => false

/-- Test for the `atRule` classification (`=== "atRule"`). -/
def isAtRuleKind : VKind → Bool
  | .atRule => true
  | _ => false

/-- Transcription of the comparator passed to `timsort.sort` in
`sortStyleObject` (macro.ts 301-350), operating on a key plus the
classification of its value.  Note the source line
`if (firstValueType && secondIsCssVar) return 0;`: `firstValueType` is a
non-empty string and therefore always truthy, so that test reduces to
`secondIsCssVar`; in particular the comparator is not antisymmetric
(a plain declaration compares equal to a following variable declaration,
while a variable declaration compares strictly before a plain one). -/
def cmpEntries (first second : String × VKind) : Int :=
  let firstIsDecl := isDeclKind first.2
  let secondIsDecl := isDeclKind second.2
  if firstIsDecl || secondIsDecl then
    if firstIsDecl && secondIsDecl then
      let firstIsCssVar := isVarKind first.2
      let secondIsCssVar := isVarKind second.2
      if secondIsCssVar then 0
      else if firstIsCssVar then -1
      else if secondIsCssVar then 1
      else 0
    else if firstIsDecl then -1
    else 1
  else
    let firstIsAtRule := isAtRuleKind first.2
    let secondIsAtRule := isAtRuleKind second.2
    if firstIsAtRule && secondIsAtRule then
      let firstNumber := stripToNumber first.1
      let secondNumber := stripToNumber second.1
      if jsNumLt firstNumber secondNumber then -1
      else if jsNumLt secondNumber firstNumber then 1
      else 0
    else if firstIsAtRule then 1
    else if secondIsAtRule then -1
    else 0

section SmallSort

variable {α : Type _}

/-- Scan of a strictly descending initial run (timsort `makeAscendingRun`,
descending branch): elements are accumulated in reverse, which is exactly the
reversal the library performs on a descending run. -/
def descGo (lt : α → α → Bool) : α → List α → List α → List α × List α
  | _, acc, [] => (acc, [])
  | prev, acc, z :: zs =>
      if lt z prev then descGo lt z (z :: acc) zs else (acc, z :: zs)

/-- Scan of a non-descending initial run (timsort `makeAscendingRun`,
ascending branch). -/
def ascGo (lt : α → α → Bool) : α → List α → List α → List α × List α
  | _, acc, [] => (acc.reverse, [])
  | prev, acc, z :: zs =>
      if lt z prev then (acc.reverse, z :: zs) else ascGo lt z (z :: acc) zs

/-- Timsort `makeAscendingRun`: split the input into an initial run (already
put in ascending order) and the remaining elements. -/
def makeRun (lt : α → α → Bool) : List α → List α × List α
  | [] => ([], [])
  | [x] => ([x], [])
  | x :: y :: rest =>
      if lt y x then descGo lt y [y, x] rest else ascGo lt y [y, x] rest

/-- The binary search of timsort `binaryInsertionSort`: find the insertion
slot for `pivot` in `l` between `left` and `right`, branching on
`compare(pivot, l[mid]) < 0` exactly as the library does.  The fuel argument
makes the definition structural; it is called with fuel `right - left`. -/
def bsGo (p : Nat → Bool) : Nat → Nat → Nat → Nat
  | 0, left, _ => left
  | fuel + 1, left, right =>
      if left < right then
        let mid := (left + right) / 2
        if p mid then bsGo p fuel left mid else bsGo p fuel (mid + 1) right
      else left

/-- Insertion slot for `pivot` in the sorted prefix `l`. -/
def binSearch (lt : α → α → Bool) (l : List α) (pivot : α) : Nat :=
  bsGo (fun i => lt pivot (l.getD i pivot)) l.length 0 l.length

/-- Timsort `binaryInsertionSort`: insert each remaining element into the
sorted prefix at the slot found by binary search. -/
def binInsertLoop (lt : α → α → Bool) : List α → List α → List α
  | sorted, [] => sorted
  | sorted, x :: xs => binInsertLoop lt (sorted.insertIdx (binSearch lt sorted x) x) xs

/-- Model of `timsort.sort` from the npm `timsort` package: the code path for
arrays shorter than MIN_MERGE (32), i.e. `makeAscendingRun` followed by
`binaryInsertionSort`.  On this path the library branches only on the sign of
the comparator. -/
def smallSort (lt : α → α → Bool) (l : List α) : List α :=
  match l with
  | [] => []
  | [x] => [x]
  | _ =>
      let (run, rest) := makeRun lt l
      binInsertLoop lt run rest

end SmallSort

/-- An entry together with the classification of its value, as examined by
the comparator. -/
abbrev EntryK := (String × SValue) × VKind

/-- Comparator test actually used by the modelled sort: the sign of
`cmpEntries` on the keys and kinds of two classified entries. -/
def ltE (a b : EntryK) : Bool := cmpEntries (a.1.1, a.2) (b.1.1, b.2) < 0

/-- Classification of every entry of one level.  In the source the comparator
classifies entries lazily during sorting; for two or more entries every entry
is an argument of at least one comparison, so the two-or-more-entry level
fails exactly when some entry fails to classify (the error message may quote
a different offending entry than the lazily raised one). -/
def classifyEntries : List (String × SValue) → Except String (List EntryK)
  | [] => .ok []
  | e :: rest =>
      match getValueType e.1 e.2 with
      | .error m => .error m
      | .ok kd =>
          match classifyEntries rest with
          | .error m => .error m
          | .ok ks => .ok ((e, kd) :: ks)

mutual

/-- Transcription of `sortStyleObject` (macro.ts 267-353): first canonicalize
every nested (non-array object) value, then sort the level's entries with the
timsort comparator.  `timsort.sort` returns without calling the comparator
when the level has fewer than two entries, so no classification happens
then. -/
def sortStyleObject (styleObject : List (String × SValue)) :
    Except String (List (String × SValue)) :=
  match sortNested styleObject with
  | .error m => .error m
  | .ok entries =>
      if entries.length < 2 then .ok entries
      else
        match classifyEntries entries with
        | .error m => .error m
        | .ok ks => .ok ((smallSort ltE ks).map Prod.fst)

/-- The pre-pass of `sortStyleObject` (macro.ts 271-276): recursively sort
every value that is an object and not an array, in entry order. -/
def sortNested : List (String × SValue) → Except String (List (String × SValue))
  | [] => .ok []
  | (k, SValue.obj o) :: rest =>
      (match sortStyleObject o with
      | .error m => .error m
      | .ok o2 =>
          match sortNested rest with
          | .error m => .error m
          | .ok rest2 => .ok ((k, SValue.obj o2) :: rest2))
  | e :: rest =>
      (match sortNested rest with
      | .error m => .error m
      | .ok rest2 => .ok (e :: rest2))

end

/-- JavaScript regular-expression whitespace (the `\s`/`\S` classes), for the
characters that can occur in selectors. -/
def jsIsSpace (c : Char) : Bool :=
  c = ' ' || c = '\t' || c = '\n' || c = '\r' || c = '\x0b' || c = '\x0c'

/-- Largest `j2 ≤ j` such that `tw` occurs in `s` at offset `j2`, scanning
downwards: the backtracking of the greedy `\S*` in the pattern
`\S*{twClass}`, which yields the rightmost reachable occurrence. -/
def descendJ (tw s : List Char) : Nat → Option Nat
  | 0 => if tw.isPrefixOf s then some 0 else none
  | j + 1 =>
      if tw.isPrefixOf (s.drop (j + 1)) then some (j + 1) else descendJ tw s j

/-- Length of the match of `\S*{twClass}` at the start of `s`, if any: the
greedy `\S*` consumes up to the maximal non-space run, then backtracks until
`twClass` matches (`twClass` matched literally, faithful to the source's
`new RegExp` for class names free of regex metacharacters). -/
def greedyMatchLen (tw s : List Char) : Option Nat :=
  let r := (s.takeWhile (fun c => !jsIsSpace c)).length
  match descendJ tw s r with
  | some j => some (j + tw.length)
  | none => none

/-- Scanning loop of `String.replace` with a global regex: find the next
match, emit the replacement `&`, continue after the match.  The fuel is the
string length; a match always consumes at least one character when the class
name is non-empty (the `some 0` case falls through to plain copying and is
unreachable then). -/
def replGo (tw : List Char) : Nat → List Char → List Char
  | _, [] => []
  | 0, s => s
  | fuel + 1, c :: rest =>
      match greedyMatchLen tw (c :: rest) with
      | some (n + 1) => '&' :: replGo tw fuel ((c :: rest).drop (n + 1))
      | _ => c :: replGo tw fuel rest

/-- Model of `unescapedCSS.replace(new RegExp("\\S*" + twClass, "g"), "&")`
from macro.ts 252-255. -/
def replaceScopeL (tw s : List Char) : List Char := replGo tw s.length s

/-- String-level wrapper of `replaceScopeL`. -/
def replaceScope (tw sel : String) : String := ⟨replaceScopeL tw.data sel.data⟩

/-- Postcss nodes as walked by `getStyleObjectFromTwObject`: declarations,
rules (whose `nodes` field may be absent — the state the source's
`if (rule.nodes)` guards against — or a present, possibly empty, array), and
at-rules keyed by their full prelude. -/
inductive CssNode where
  | decl : String → String → CssNode
  | rule : String → Option (List CssNode) → CssNode
  | atrule : String → List CssNode → CssNode

/-- Transcription of the `walkRules` pass of `getStyleObjectFromTwObject`
(macro.ts 246-263) as a recursive transformation: a rule whose unescaped
selector is exactly `.{twClass}` is replaced by its children; otherwise its
selector is rewritten by the scope regex, and if the result is exactly `&`
the rule is again replaced by its children; a rule whose `nodes` field is
absent throws.  `u` is the supplied `unescapeCSS`.  In the source the splice
happens by in-place `replaceWith` during the walk; the promoted children are
then visited exactly once via the walk of the detached rule, which this
recursive formulation reproduces. -/
def transformRules (u : String → String) (tw : String) :
    List CssNode → Except String (List CssNode)
  | [] => .ok []
  | CssNode.decl p v :: rest =>
      (match transformRules u tw rest with
      | .error m => .error m
      | .ok rest2 => .ok (CssNode.decl p v :: rest2))
  | CssNode.atrule k cs :: rest =>
      (match transformRules u tw cs with
      | .error m => .error m
      | .ok cs2 =>
          match transformRules u tw rest with
          | .error m => .error m
          | .ok rest2 => .ok (CssNode.atrule k cs2 :: rest2))
  | CssNode.rule _ none :: _ => .error "Rule has no nodes"
  | CssNode.rule sel (some cs) :: rest =>
      if u sel = "." ++ tw then
        match transformRules u tw cs with
        | .error m => .error m
        | .ok cs2 =>
            match transformRules u tw rest with
            | .error m => .error m
            | .ok rest2 => .ok (cs2 ++ rest2)
      else
        let ns := replaceScope tw (u sel)
        if ns = "&" then
          match transformRules u tw cs with
          | .error m => .error m
          | .ok cs2 =>
              match transformRules u tw rest with
              | .error m => .error m
              | .ok rest2 => .ok (cs2 ++ rest2)
        else
          match transformRules u tw cs with
          | .error m => .error m
          | .ok cs2 =>
              match transformRules u tw rest with
              | .error m => .error m
              | .ok rest2 => .ok (CssNode.rule ns (some cs2) :: rest2)

/-- Assignment into a JavaScript object: an existing key keeps its position
and gets the new value, a new key is appended. -/
def setEntry : List (String × SValue) → String → SValue → List (String × SValue)
  | [], k, v => [(k, v)]
  | (k0, v0) :: tl, k, v =>
      if k0 = k then (k0, v) :: tl else (k0, v0) :: setEntry tl k v

mutual

/-- Modelled from the spec: `objectify` (`./postcssjs-objectify`) is
repository code not included under `src/`.  Spec section 4.1 step 6:
property/value pairs become declaration entries; remaining rule containers
become rule entries keyed by their rewritten selector; at-rule containers
become at-rule entries keyed by their prelude. -/
def objectifyGo : List CssNode → List (String × SValue) → List (String × SValue)
  | [], acc => acc
  | CssNode.decl p v :: rest, acc => objectifyGo rest (setEntry acc p (SValue.str v))
  | CssNode.rule sel cs :: rest, acc =>
      objectifyGo rest (setEntry acc sel (SValue.obj (objectifyOpt cs)))
  | CssNode.atrule k cs :: rest, acc =>
      objectifyGo rest (setEntry acc k (SValue.obj (objectifyGo cs [])))

/-- Body of a rule node for `objectifyGo`; an absent `nodes` field yields an
empty structure (unreachable on the success path of the walk). -/
def objectifyOpt : Option (List CssNode) → List (String × SValue)
  | none => []
  | some cs => objectifyGo cs []

end

mutual

/-- Modelled deep-merge value combination of the external `lodash` `merge`
(macro.ts 371), following its documented and observable semantics on the
representable values: plain objects merge recursively; two arrays merge
index-wise (source elements overwrite, the destination's excess tail is
kept); a plain-object source merged onto an array destination leaves the
array's observable elements unchanged (lodash grafts the source's properties
onto the array object, which a style value cannot observe); every other
source value overrides by assignment. -/
def mergeValue : SValue → SValue → SValue
  | SValue.obj o1, SValue.obj o2 => SValue.obj (mergeEntries o1 o2)
  | SValue.strArr a1, SValue.strArr a2 => SValue.strArr (a2 ++ a1.drop a2.length)
  | SValue.strArr a1, SValue.obj _ => SValue.strArr a1
  | _, src => src

/-- Key-wise fold of `lodash` `merge`: each source entry is merged into the
accumulator in order. -/
def mergeEntries : List (String × SValue) → List (String × SValue) →
    List (String × SValue)
  | acc, [] => acc
  | acc, (k, v) :: rest => mergeEntries (mergeOne acc k v) rest

/-- Merge of a single source entry: an existing key keeps its position and
its value is combined with `mergeValue`; a new key is appended. -/
def mergeOne : List (String × SValue) → String → SValue → List (String × SValue)
  | [], k, v => [(k, v)]
  | (k0, v0) :: tl, k, v =>
      if k0 = k then (k0, mergeValue v0 v) :: tl else (k0, v0) :: mergeOne tl k v

end

section Lemmas

variable {α : Type _}

/-- The modelled sort on a two-element array reduces to a single comparison:
the pair is swapped exactly when `compare(second, first) < 0` (the descending
run of `makeAscendingRun` gets reversed). -/
lemma smallSort_pair (lt : α → α → Bool) (a b : α) :
    smallSort lt [a, b] = if lt b a then [b, a] else [a, b] := by
  by_cases h : lt b a <;>
    simp [smallSort, makeRun, descGo, ascGo, binInsertLoop, h]

/-- The empty structure sorts to itself. -/
lemma sortStyleObject_nil : sortStyleObject [] = .ok [] := by
  simp [sortStyleObject, sortNested]

end Lemmas

/-- C1: a style structure with exactly one custom-property entry (string
value, key starting with `--`) and one plain declaration entry (string value,
key without the marker) canonicalizes with the custom-property key first,
whichever of the two came first in the input. -/
theorem claimC1_variable_first (k1 k2 : String) (v1 v2 : String)
    (h1 : hasPrefixStr k1 "--" = true) (h2 : hasPrefixStr k2 "--" = false) :
    sortStyleObject [(k1, SValue.str v1), (k2, SValue.str v2)]
        = .ok [(k1, SValue.str v1), (k2, SValue.str v2)]
    ∧ sortStyleObject [(k2, SValue.str v2), (k1, SValue.str v1)]
        = .ok [(k1, SValue.str v1), (k2, SValue.str v2)] := by
  constructor <;>
    simp [sortStyleObject, sortNested, classifyEntries, getValueType, h1, h2,
      smallSort_pair, ltE, cmpEntries, isDeclKind, isVarKind]

/-- Witness for C1 at concrete entries. -/
theorem claimC1_variable_first_witness :
    sortStyleObject [("color", SValue.str "red"), ("--x", SValue.str "0")]
      = .ok [("--x", SValue.str "0"), ("color", SValue.str "red")] :=
  (claimC1_variable_first "--x" "color" "0" "red" (by decide) (by decide)).2

/-- C5: between two at-rule entries canonicalization orders by the integer
obtained from the key after stripping all non-digit characters, smaller
first, in either input order; two at-rule keys without digits keep their
input order. -/
theorem claimC5_atrule_numeric (ka kb : String) (oa ob oa2 ob2 : List (String × SValue))
    (hka : hasPrefixStr ka "@" = true) (hkb : hasPrefixStr kb "@" = true)
    (hsa : sortStyleObject oa = .ok oa2) (hsb : sortStyleObject ob = .ok ob2) :
    (∀ na nb : Nat, stripToNumber ka = some na → stripToNumber kb = some nb →
        na < nb →
        sortStyleObject [(ka, SValue.obj oa), (kb, SValue.obj ob)]
            = .ok [(ka, SValue.obj oa2), (kb, SValue.obj ob2)]
        ∧ sortStyleObject [(kb, SValue.obj ob), (ka, SValue.obj oa)]
            = .ok [(ka, SValue.obj oa2), (kb, SValue.obj ob2)])
    ∧ (stripToNumber ka = none → stripToNumber kb = none →
        sortStyleObject [(ka, SValue.obj oa), (kb, SValue.obj ob)]
            = .ok [(ka, SValue.obj oa2), (kb, SValue.obj ob2)]) := by
  constructor
  · intro na nb hna hnb hlt
    constructor <;>
      simp [sortStyleObject, sortNested, classifyEntries, getValueType, hka, hkb,
        hsa, hsb, smallSort_pair, ltE, cmpEntries, isDeclKind, isVarKind,
        isAtRuleKind, jsNumLt, hna, hnb, hlt, Nat.not_lt_of_lt hlt]
  · intro hna hnb
    simp [sortStyleObject, sortNested, classifyEntries, getValueType, hka, hkb,
      hsa, hsb, smallSort_pair, ltE, cmpEntries, isDeclKind, isVarKind,
      isAtRuleKind, jsNumLt, hna, hnb]

/-- Witness for C5: the spec's media-query pair, 640 before 1024. -/
theorem claimC5_atrule_numeric_witness :
    sortStyleObject
        [("@media (min-width: 1024px)", SValue.obj []),
         ("@media (min-width: 640px)", SValue.obj [])]
      = .ok
        [("@media (min-width: 640px)", SValue.obj []),
         ("@media (min-width: 1024px)", SValue.obj [])] :=
  ((claimC5_atrule_numeric "@media (min-width: 640px)" "@media (min-width: 1024px)"
      [] [] [] [] (by decide) (by decide) sortStyleObject_nil sortStyleObject_nil).1
    640 1024 (by decide) (by decide) (by decide)).2

/-- Entry whose value fails the classification of `getValueType`. -/
def badEntryB (k : String) (v : SValue) : Bool :=
  match getValueType k v with
  | .error _ => true
  | .ok _ => false

section NestedPass

/-- The nested pass preserves the number of entries. -/
lemma sortNested_length {es es2 : List (String × SValue)}
    (h : sortNested es = .ok es2) : es2.length = es.length := by
  induction es generalizing es2 with
  | nil => simp_all [sortNested]
  | cons e rest ih =>
      obtain ⟨k, v⟩ := e
      cases v with
      | obj o =>
          simp only [sortNested] at h
          cases ho : sortStyleObject o with
          | error m => simp [ho] at h
          | ok o2 =>
              cases hr : sortNested rest with
              | error m => simp [ho, hr] at h
              | ok rest2 =>
                  simp [ho, hr] at h
                  subst h
                  simp [ih hr]
      | str s =>
          simp only [sortNested] at h
          cases hr : sortNested rest with
          | error m => simp [hr] at h
          | ok rest2 => simp [hr] at h; subst h; simp [ih hr]
      | strArr a =>
          simp only [sortNested] at h
          cases hr : sortNested rest with
          | error m => simp [hr] at h
          | ok rest2 => simp [hr] at h; subst h; simp [ih hr]
      | num n =>
          simp only [sortNested] at h
          cases hr : sortNested rest with
          | error m => simp [hr] at h
          | ok rest2 => simp [hr] at h; subst h; simp [ih hr]

/-- A misclassified entry survives the nested pass: classification depends
only on the key and the value's constructor, both of which the pass
preserves. -/
lemma sortNested_bad_mem {es es2 : List (String × SValue)} {k : String} {v : SValue}
    (h : sortNested es = .ok es2) (hmem : (k, v) ∈ es) (hbad : badEntryB k v = true) :
    ∃ v2, (k, v2) ∈ es2 ∧ badEntryB k v2 = true := by
  induction es generalizing es2 with
  | nil => simp at hmem
  | cons e rest ih =>
      obtain ⟨k0, v0⟩ := e
      cases v0 with
      | obj o =>
          simp only [sortNested] at h
          cases ho : sortStyleObject o with
          | error m => simp [ho] at h
          | ok o2 =>
              cases hr : sortNested rest with
              | error m => simp [ho, hr] at h
              | ok rest2 =>
                  simp [ho, hr] at h
                  subst h
                  rcases List.mem_cons.mp hmem with hc | hc
                  · obtain ⟨hk, hv⟩ := Prod.mk.injEq .. ▸ hc
                    subst hk hv
                    exact ⟨SValue.obj o2, List.mem_cons_self .., by
                      simpa [badEntryB, getValueType] using hbad⟩
                  · obtain ⟨v2, hv2, hb2⟩ := ih hr hc
                    exact ⟨v2, List.mem_cons_of_mem _ hv2, hb2⟩
      | str s =>
          simp only [sortNested] at h
          cases hr : sortNested rest with
          | error m => simp [hr] at h
          | ok rest2 =>
              simp [hr] at h
              subst h
              rcases List.mem_cons.mp hmem with hc | hc
              · exact ⟨v, by simp [hc], hbad⟩
              · obtain ⟨v2, hv2, hb2⟩ := ih hr hc
                exact ⟨v2, List.mem_cons_of_mem _ hv2, hb2⟩
      | strArr a =>
          simp only [sortNested] at h
          cases hr : sortNested rest with
          | error m => simp [hr] at h
          | ok rest2 =>
              simp [hr] at h
              subst h
              rcases List.mem_cons.mp hmem with hc | hc
              · exact ⟨v, by simp [hc], hbad⟩
              · obtain ⟨v2, hv2, hb2⟩ := ih hr hc
                exact ⟨v2, List.mem_cons_of_mem _ hv2, hb2⟩
      | num n =>
          simp only [sortNested] at h
          cases hr : sortNested rest with
          | error m => simp [hr] at h
          | ok rest2 =>
              simp [hr] at h
              subst h
              rcases List.mem_cons.mp hmem with hc | hc
              · exact ⟨v, by simp [hc], hbad⟩
              · obtain ⟨v2, hv2, hb2⟩ := ih hr hc
                exact ⟨v2, List.mem_cons_of_mem _ hv2, hb2⟩

/-- Classification of a level fails when some entry is misclassified. -/
lemma classifyEntries_error_of_bad {l : List (String × SValue)} {k : String}
    {v : SValue} (hmem : (k, v) ∈ l) (hbad : badEntryB k v = true) :
    ∃ m, classifyEntries l = .error m := by
  induction l with
  | nil => simp at hmem
  | cons e rest ih =>
      rcases List.mem_cons.mp hmem with hc | hc
      · subst hc
        unfold badEntryB at hbad
        cases hg : getValueType k v with
        | error m => exact ⟨m, by simp [classifyEntries, hg]⟩
        | ok kd => simp [hg] at hbad
      · obtain ⟨m, hm⟩ := ih hc
        cases hg : getValueType e.1 e.2 with
        | error m2 => exact ⟨m2, by simp [classifyEntries, hg]⟩
        | ok kd => exact ⟨m, by simp [classifyEntries, hg, hm]⟩

end NestedPass

/-- C9 counterexample: a structure consisting of a single entry whose value
is a number is returned unchanged — `timsort.sort` returns before invoking
the comparator on arrays shorter than two, so no classification happens and
no error is raised, contradicting the claim that such a structure throws. -/
theorem claimC9_counterexample :
    sortStyleObject [("a", SValue.num 5)] = .ok [("a", SValue.num 5)] := by
  simp [sortStyleObject, sortNested]

/-- C9 (amended): classifying an entry whose value is neither a string, nor
an array, nor an object, or a non-array object entry whose key neither starts
with `@` nor contains `&`, raises a classification error — provided the
containing level has at least two entries; the comparator (and with it the
classification) only runs while sorting levels of two or more entries, and a
single-entry level is returned unchanged. -/
theorem claimC9_classification_error (es : List (String × SValue)) (k : String)
    (v : SValue) (hmem : (k, v) ∈ es) (hbad : badEntryB k v = true)
    (hlen : 2 ≤ es.length) :
    ∃ m, sortStyleObject es = .error m := by
  rw [sortStyleObject]
  cases hn : sortNested es with
  | error m => exact ⟨m, rfl⟩
  | ok es2 =>
      obtain ⟨v2, hv2, hb2⟩ := sortNested_bad_mem hn hmem hbad
      obtain ⟨m, hm⟩ := classifyEntries_error_of_bad hv2 hb2
      have hlen2 : ¬ es2.length < 2 := by
        rw [sortNested_length hn]; omega
      exact ⟨m, by simp [hlen2, hm]⟩

/-- Witness for the amended C9: a two-entry level holding a number value
raises a classification error. -/
theorem claimC9_classification_error_witness :
    ∃ m, sortStyleObject [("a", SValue.num 5), ("b", SValue.str "x")] = .error m :=
  claimC9_classification_error _ "a" (SValue.num 5) (by simp)
    (by simp [badEntryB, getValueType]) (by simp)

section MergeLemmas

end MergeLemmas

section TokenRewrite

/-- Per-token description of the scope rewrite: a token containing the class
name has everything up to and including its last occurrence replaced by `&`
(the remainder of the token is kept); a token without the class name is left
unchanged.  `descendJ tw t t.length` is the last occurrence of `tw` in `t`. -/
def rewriteToken (tw t : List Char) : List Char :=
  match descendJ tw t t.length with
  | some j => '&' :: t.drop (j + tw.length)
  | none => t

/-- Join of whitespace-delimited selector tokens with single spaces. -/
def joinTokens : List (List Char) → List Char
  | [] => []
  | [t] => t
  | t :: ts => t ++ ' ' :: joinTokens ts

/-- The replacement scan is independent of its fuel once the fuel covers the
string length. -/
lemma replGo_fuel (tw : List Char) :
    ∀ (n : Nat) (s : List Char) (f g : Nat), s.length ≤ n → s.length ≤ f →
      s.length ≤ g → replGo tw f s = replGo tw g s := by
  intro n
  induction n with
  | zero =>
      intro s f g hn _ _
      match s with
      | [] => simp [replGo]
  | succ n ih =>
      intro s f g hn hf hg
      match s with
      | [] => simp [replGo]
      | c :: rest =>
          simp only [List.length_cons] at hn hf hg
          obtain ⟨f2, rfl⟩ : ∃ f2, f = f2 + 1 := ⟨f - 1, by omega⟩
          obtain ⟨g2, rfl⟩ : ∃ g2, g = g2 + 1 := ⟨g - 1, by omega⟩
          rw [replGo, replGo]
          cases hm : greedyMatchLen tw (c :: rest) with
          | none =>
              exact congrArg (c :: ·) (ih rest f2 g2 (by omega) (by omega) (by omega))
          | some len =>
              cases len with
              | zero =>
                  exact congrArg (c :: ·) (ih rest f2 g2 (by omega) (by omega) (by omega))
              | succ k =>
                  refine congrArg ('&' :: ·) (ih ((c :: rest).drop (k + 1)) f2 g2 ?_ ?_ ?_) <;>
                    simp only [List.length_drop, List.length_cons] <;> omega

/-- The replacement loop with sufficient fuel computes `replaceScopeL`. -/
lemma replGo_eq_replaceScopeL (tw s : List Char) (f : Nat) (hf : s.length ≤ f) :
    replGo tw f s = replaceScopeL tw s :=
  replGo_fuel tw s.length s f s.length (le_refl _) hf (le_refl _)

/-- Step equation of the scan at a successful match. -/
lemma replGo_cons_some (tw : List Char) (fuel n : Nat) (c : Char) (rest : List Char)
    (h : greedyMatchLen tw (c :: rest) = some (n + 1)) :
    replGo tw (fuel + 1) (c :: rest) = '&' :: replGo tw fuel ((c :: rest).drop (n + 1)) := by
  rw [replGo, h]

/-- Step equation of the scan when no match starts at the position. -/
lemma replGo_cons_none (tw : List Char) (fuel : Nat) (c : Char) (rest : List Char)
    (h : greedyMatchLen tw (c :: rest) = none) :
    replGo tw (fuel + 1) (c :: rest) = c :: replGo tw fuel rest := by
  rw [replGo, h]

/-- Token rewrite at a token containing the class name. -/
lemma rewriteToken_some {tw t : List Char} {j : Nat}
    (h : descendJ tw t t.length = some j) :
    rewriteToken tw t = '&' :: t.drop (j + tw.length) := by
  rw [rewriteToken, h]

/-- Token rewrite at a token free of the class name. -/
lemma rewriteToken_none {tw t : List Char} (h : descendJ tw t t.length = none) :
    rewriteToken tw t = t := by
  rw [rewriteToken, h]

/-- What a successful backtracking search returns: the rightmost occurrence
of `tw` at or below the bound. -/
lemma descendJ_some {tw s : List Char} :
    ∀ {j j2 : Nat}, descendJ tw s j = some j2 →
      j2 ≤ j ∧ tw <+: s.drop j2 ∧ ∀ i, j2 < i → i ≤ j → ¬ tw <+: s.drop i := by
  intro j
  induction j with
  | zero =>
      intro j2 h
      rw [descendJ] at h
      by_cases hp : tw.isPrefixOf s
      · simp [hp] at h
        subst h
        exact ⟨le_refl _, by simpa using List.isPrefixOf_iff_prefix.mp hp,
          fun i h1 h2 => by omega⟩
      · simp [hp] at h
  | succ j ih =>
      intro j2 h
      rw [descendJ] at h
      by_cases hp : tw.isPrefixOf (s.drop (j + 1))
      · simp [hp] at h
        subst h
        exact ⟨le_refl _, List.isPrefixOf_iff_prefix.mp hp,
          fun i h1 h2 => by omega⟩
      · simp [hp] at h
        obtain ⟨h1, h2, h3⟩ := ih h
        refine ⟨h1.trans (by omega), h2, fun i hi1 hi2 => ?_⟩
        by_cases hij : i ≤ j
        · exact h3 i hi1 hij
        · have : i = j + 1 := by omega
          subst this
          exact fun hc => hp (List.isPrefixOf_iff_prefix.mpr hc)

/-- A failed backtracking search means no occurrence at or below the bound. -/
lemma descendJ_none {tw s : List Char} :
    ∀ {j : Nat}, descendJ tw s j = none → ∀ i, i ≤ j → ¬ tw <+: s.drop i := by
  intro j
  induction j with
  | zero =>
      intro h i hi
      rw [descendJ] at h
      by_cases hp : tw.isPrefixOf s
      · simp [hp] at h
      · have : i = 0 := by omega
        subst this
        exact fun hc => hp (List.isPrefixOf_iff_prefix.mpr (by simpa using hc))
  | succ j ih =>
      intro h i hi
      rw [descendJ] at h
      by_cases hp : tw.isPrefixOf (s.drop (j + 1))
      · simp [hp] at h
      · simp [hp] at h
        by_cases hij : i ≤ j
        · exact ih h i hij
        · have : i = j + 1 := by omega
          subst this
          exact fun hc => hp (List.isPrefixOf_iff_prefix.mpr hc)

/-- Absence of occurrences at or below the bound makes the search fail. -/
lemma descendJ_none_of {tw s : List Char} :
    ∀ {j : Nat}, (∀ i, i ≤ j → ¬ tw <+: s.drop i) → descendJ tw s j = none := by
  intro j
  induction j with
  | zero =>
      intro h
      rw [descendJ]
      have h0 := h 0 (le_refl _)
      simp only [List.drop_zero] at h0
      have hp : tw.isPrefixOf s = false := by
        cases hc : tw.isPrefixOf s
        · rfl
        · exact absurd (List.isPrefixOf_iff_prefix.mp hc) h0
      simp [hp]
  | succ j ih =>
      intro h
      rw [descendJ]
      have h1 := h (j + 1) (le_refl _)
      have hp : tw.isPrefixOf (s.drop (j + 1)) = false := by
        cases hc : tw.isPrefixOf (s.drop (j + 1))
        · rfl
        · exact absurd (List.isPrefixOf_iff_prefix.mp hc) h1
      simp [hp]
      exact ih fun i hi => h i (by omega)

end TokenRewrite



section TokenScan

variable {tw t rs : List Char}

/-- An occurrence of the space-free class name at an offset inside a
space-free token is insensitive to a space-separated continuation. -/
lemma prefix_token_drop (htw : ∀ c ∈ tw, jsIsSpace c = false) {j : Nat}
    (hj : j ≤ t.length) :
    tw <+: (t ++ ' ' :: rs).drop j ↔ tw <+: t.drop j := by
  rw [List.drop_append_of_le_length hj]
  constructor
  · intro h
    by_cases hlen : tw.length ≤ (t.drop j).length
    · have htake : tw = ((t.drop j) ++ ' ' :: rs).take tw.length :=
        List.prefix_iff_eq_take.mp h
      rw [List.take_append_of_le_length hlen] at htake
      rw [htake]
      exact List.take_prefix _ _
    · exfalso
      obtain ⟨suf, hsuf⟩ := h
      rcases List.append_eq_append_iff.mp hsuf with ⟨a2, ha, _⟩ | ⟨c2, hc, hd⟩
      · exact hlen (by rw [ha]; simp)
      · cases c2 with
        | nil => exact hlen (by rw [hc]; simp)
        | cons x c2t =>
            have hx : x = ' ' := by
              have := congrArg (List.headD · 'x') hd
              simpa using this.symm
            subst hx
            have hmem : ' ' ∈ tw := by
              rw [hc]
              exact List.mem_append_right _ (List.mem_cons_self ..)
            have := htw ' ' hmem
            simp [jsIsSpace] at this
  · intro h
    exact h.trans (List.prefix_append _ _)

/-- Boolean form of `prefix_token_drop`. -/
lemma isPrefixOf_token_drop (htw : ∀ c ∈ tw, jsIsSpace c = false) {j : Nat}
    (hj : j ≤ t.length) :
    tw.isPrefixOf ((t ++ ' ' :: rs).drop j) = tw.isPrefixOf (t.drop j) := by
  cases hc : tw.isPrefixOf (t.drop j)
  · cases hc2 : tw.isPrefixOf ((t ++ ' ' :: rs).drop j)
    · rfl
    · exfalso
      have := (@prefix_token_drop tw t rs htw _ hj).mp
        (List.isPrefixOf_iff_prefix.mp hc2)
      rw [List.isPrefixOf_iff_prefix.mpr this] at hc
      exact Bool.noConfusion hc
  · exact List.isPrefixOf_iff_prefix.mpr
      ((@prefix_token_drop tw t rs htw _ hj).mpr (List.isPrefixOf_iff_prefix.mp hc))

/-- The backtracking search does not see past the separating space. -/
lemma descendJ_append_sep (htw : ∀ c ∈ tw, jsIsSpace c = false) :
    ∀ j, j ≤ t.length → descendJ tw (t ++ ' ' :: rs) j = descendJ tw t j := by
  intro j
  induction j with
  | zero =>
      intro hj
      rw [descendJ, descendJ]
      have h0 : tw.isPrefixOf (t ++ ' ' :: rs) = tw.isPrefixOf t := by
        have := @isPrefixOf_token_drop tw t rs htw 0 (Nat.zero_le t.length)
        simpa using this
      rw [h0]
  | succ j ih =>
      intro hj
      rw [descendJ, descendJ, isPrefixOf_token_drop htw hj, ih (by omega)]

/-- Length of the maximal non-space run at a token followed by a space. -/
lemma takeWhile_token_sep (ht : ∀ c ∈ t, jsIsSpace c = false) :
    ((t ++ ' ' :: rs).takeWhile (fun c => !jsIsSpace c)).length = t.length := by
  induction t with
  | nil => simp [List.takeWhile, jsIsSpace]
  | cons c t2 ih =>
      have hc : jsIsSpace c = false := ht c (List.mem_cons_self ..)
      have ih2 := ih (fun x hx => ht x (List.mem_cons_of_mem _ hx))
      simp only [List.cons_append, List.takeWhile_cons, hc]
      simpa using ih2

/-- Length of the maximal non-space run of a space-free token. -/
lemma takeWhile_token_last (ht : ∀ c ∈ t, jsIsSpace c = false) :
    (t.takeWhile (fun c => !jsIsSpace c)).length = t.length := by
  rw [List.takeWhile_eq_self_iff.mpr (fun x hx => by simp [ht x hx])]

end TokenScan



section TokenCopy

variable {tw : List Char}

/-- Space characters are spaces. -/
lemma jsIsSpace_space : jsIsSpace ' ' = true := by decide

/-- No match starts at a space when the class name is space-free. -/
lemma greedy_space_cons (htw1 : tw ≠ []) (htw2 : ∀ c ∈ tw, jsIsSpace c = false)
    (rs : List Char) : greedyMatchLen tw (' ' :: rs) = none := by
  match tw, htw1 with
  | c :: tw2, _ =>
      have hpf : (c :: tw2).isPrefixOf (' ' :: rs) = false := by
        cases hcc : (c :: tw2).isPrefixOf (' ' :: rs)
        · rfl
        · exfalso
          obtain ⟨suf, hsuf⟩ := List.isPrefixOf_iff_prefix.mp hcc
          rw [List.cons_append] at hsuf
          have hc : c = ' ' := (List.cons.injEq .. ▸ hsuf).1
          have := htw2 c (List.mem_cons_self ..)
          rw [hc, jsIsSpace_space] at this
          exact Bool.noConfusion this
      simp [greedyMatchLen, List.takeWhile_cons, jsIsSpace_space,
        descendJ, hpf]

/-- The scan copies a leading space and continues. -/
lemma replaceScopeL_space_cons (htw1 : tw ≠ []) (htw2 : ∀ c ∈ tw, jsIsSpace c = false)
    (rs : List Char) : replaceScopeL tw (' ' :: rs) = ' ' :: replaceScopeL tw rs := by
  rw [replaceScopeL]
  simp only [List.length_cons]
  rw [replGo, greedy_space_cons htw1 htw2]
  rfl

/-- The scan copies a space-free token with no occurrence of the class name,
then continues after the separating space. -/
lemma replaceScopeL_copy_sep (htw1 : tw ≠ []) (htw2 : ∀ c ∈ tw, jsIsSpace c = false) :
    ∀ (t rs : List Char), (∀ c ∈ t, jsIsSpace c = false) →
      descendJ tw t t.length = none →
      replaceScopeL tw (t ++ ' ' :: rs) = t ++ ' ' :: replaceScopeL tw rs := by
  intro t
  induction t with
  | nil =>
      intro rs _ _
      simpa using replaceScopeL_space_cons htw1 htw2 rs
  | cons c t2 ih =>
      intro rs ht hnone
      have hgm : greedyMatchLen tw ((c :: t2) ++ ' ' :: rs) = none := by
        simp only [greedyMatchLen]
        rw [takeWhile_token_sep ht, descendJ_append_sep htw2 _ (le_refl _), hnone]
      rw [replaceScopeL]
      simp only [List.cons_append, List.length_cons] at hgm ⊢
      rw [replGo, hgm]
      have hnone2 : descendJ tw t2 t2.length = none := by
        apply descendJ_none_of
        intro i hi hpre
        refine descendJ_none hnone (i + 1) (by simp; omega) ?_
        simpa [List.drop_succ_cons] using hpre
      rw [replGo_eq_replaceScopeL tw _ _ (by simp),
        ih rs (fun x hx => ht x (List.mem_cons_of_mem _ hx)) hnone2]

/-- The scan copies a trailing space-free token with no occurrence of the
class name. -/
lemma replaceScopeL_copy_last (htw1 : tw ≠ []) (htw2 : ∀ c ∈ tw, jsIsSpace c = false) :
    ∀ t : List Char, (∀ c ∈ t, jsIsSpace c = false) →
      descendJ tw t t.length = none → replaceScopeL tw t = t := by
  intro t
  induction t with
  | nil => simp [replaceScopeL, replGo]
  | cons c t2 ih =>
      intro ht hnone
      have hgm : greedyMatchLen tw (c :: t2) = none := by
        simp only [greedyMatchLen]
        rw [takeWhile_token_last ht, hnone]
      rw [replaceScopeL]
      simp only [List.length_cons]
      rw [replGo, hgm]
      have hnone2 : descendJ tw t2 t2.length = none := by
        apply descendJ_none_of
        intro i hi hpre
        refine descendJ_none hnone (i + 1) (by simp; omega) ?_
        simpa [List.drop_succ_cons] using hpre
      rw [replGo_eq_replaceScopeL tw _ _ (by simp),
        ih (fun x hx => ht x (List.mem_cons_of_mem _ hx)) hnone2]

end TokenCopy



section TokenStep

variable {tw : List Char}

/-- One token followed by a space: the scan rewrites the token (erasing
through the last occurrence of the class name, keeping the remainder) and
continues after the space. -/
lemma replaceScopeL_token_sep (htw1 : tw ≠ []) (htw2 : ∀ c ∈ tw, jsIsSpace c = false)
    (t rs : List Char) (ht : ∀ c ∈ t, jsIsSpace c = false) :
    replaceScopeL tw (t ++ ' ' :: rs) = rewriteToken tw t ++ ' ' :: replaceScopeL tw rs := by
  cases hd : descendJ tw t t.length with
  | none =>
      rw [rewriteToken_none hd]
      exact replaceScopeL_copy_sep htw1 htw2 t rs ht hd
  | some j =>
      obtain ⟨hj_le, hpre, hmax⟩ := descendJ_some hd
      have htwpos : 1 ≤ tw.length := List.length_pos.mpr htw1
      have hfit : j + tw.length ≤ t.length := by
        have := hpre.length_le
        rw [List.length_drop] at this
        omega
      cases t with
      | nil =>
          exfalso
          match tw, htw1 with
          | c :: tw2, _ => simp [descendJ, List.isPrefixOf] at hd
      | cons c t2 =>
          have hgm : greedyMatchLen tw ((c :: t2) ++ ' ' :: rs) = some (j + tw.length) := by
            simp only [greedyMatchLen]
            rw [takeWhile_token_sep ht, descendJ_append_sep htw2 _ (le_refl _), hd]
          obtain ⟨len2, hlen2⟩ : ∃ m, j + tw.length = m + 1 := ⟨j + tw.length - 1, by omega⟩
          rw [hlen2] at hgm
          rw [replaceScopeL]
          simp only [List.cons_append, List.length_cons] at hgm ⊢
          rw [replGo_cons_some tw _ len2 c (t2 ++ ' ' :: rs) hgm]
          have hdrop : (c :: (t2 ++ ' ' :: rs)).drop (len2 + 1)
              = (c :: t2).drop (j + tw.length) ++ ' ' :: rs := by
            rw [← hlen2, ← List.cons_append]
            exact List.drop_append_of_le_length hfit
          rw [hdrop]
          have hu_nonspace : ∀ x ∈ (c :: t2).drop (j + tw.length), jsIsSpace x = false :=
            fun x hx => ht x (List.drop_subset _ _ hx)
          have hu_none : descendJ tw ((c :: t2).drop (j + tw.length))
              ((c :: t2).drop (j + tw.length)).length = none := by
            apply descendJ_none_of
            intro i hi hpre2
            have hocc : tw <+: (c :: t2).drop (j + tw.length + i) := by
              rw [← List.drop_drop]
              exact hpre2
            have hl := hpre2.length_le
            rw [List.length_drop, List.length_drop] at hl
            exact hmax (j + tw.length + i) (by omega) (by omega) hocc
          rw [replGo_eq_replaceScopeL tw _ _
            (by simp only [List.length_append, List.length_drop, List.length_cons]; omega)]
          rw [replaceScopeL_copy_sep htw1 htw2 _ rs hu_nonspace hu_none]
          rw [rewriteToken_some hd]
          simp

/-- A trailing token: the scan rewrites it and stops. -/
lemma replaceScopeL_token_last (htw1 : tw ≠ []) (htw2 : ∀ c ∈ tw, jsIsSpace c = false)
    (t : List Char) (ht : ∀ c ∈ t, jsIsSpace c = false) :
    replaceScopeL tw t = rewriteToken tw t := by
  cases hd : descendJ tw t t.length with
  | none =>
      rw [rewriteToken_none hd]
      exact replaceScopeL_copy_last htw1 htw2 t ht hd
  | some j =>
      obtain ⟨hj_le, hpre, hmax⟩ := descendJ_some hd
      have htwpos : 1 ≤ tw.length := List.length_pos.mpr htw1
      have hfit : j + tw.length ≤ t.length := by
        have := hpre.length_le
        rw [List.length_drop] at this
        omega
      cases t with
      | nil =>
          exfalso
          match tw, htw1 with
          | c :: tw2, _ => simp [descendJ, List.isPrefixOf] at hd
      | cons c t2 =>
          have hgm : greedyMatchLen tw (c :: t2) = some (j + tw.length) := by
            simp only [greedyMatchLen]
            rw [takeWhile_token_last ht, hd]
          obtain ⟨len2, hlen2⟩ : ∃ m, j + tw.length = m + 1 := ⟨j + tw.length - 1, by omega⟩
          rw [hlen2] at hgm
          rw [replaceScopeL]
          simp only [List.length_cons]
          rw [replGo_cons_some tw t2.length len2 c t2 hgm, ← hlen2]
          have hu_nonspace : ∀ x ∈ (c :: t2).drop (j + tw.length), jsIsSpace x = false :=
            fun x hx => ht x (List.drop_subset _ _ hx)
          have hu_none : descendJ tw ((c :: t2).drop (j + tw.length))
              ((c :: t2).drop (j + tw.length)).length = none := by
            apply descendJ_none_of
            intro i hi hpre2
            have hocc : tw <+: (c :: t2).drop (j + tw.length + i) := by
              rw [← List.drop_drop]
              exact hpre2
            have hl := hpre2.length_le
            rw [List.length_drop, List.length_drop] at hl
            exact hmax (j + tw.length + i) (by omega) (by omega) hocc
          rw [replGo_eq_replaceScopeL tw _ _
            (by simp only [List.length_drop, List.length_cons]; omega)]
          rw [replaceScopeL_copy_last htw1 htw2 _ hu_nonspace hu_none]
          rw [rewriteToken_some hd]

/-- Token-level description of the whole selector rewrite. -/
lemma replaceScopeL_joinTokens (htw1 : tw ≠ []) (htw2 : ∀ c ∈ tw, jsIsSpace c = false) :
    ∀ tokens : List (List Char), (∀ t ∈ tokens, ∀ c ∈ t, jsIsSpace c = false) →
      replaceScopeL tw (joinTokens tokens)
        = joinTokens (tokens.map (rewriteToken tw)) := by
  intro tokens
  induction tokens with
  | nil => intro _; simp [joinTokens, replaceScopeL, replGo]
  | cons t ts ih =>
      intro htoks
      cases ts with
      | nil =>
          simp only [joinTokens, List.map_cons, List.map_nil]
          exact replaceScopeL_token_last htw1 htw2 t (htoks t (List.mem_cons_self ..))
      | cons t2 ts2 =>
          rw [show joinTokens (t :: t2 :: ts2) = t ++ ' ' :: joinTokens (t2 :: ts2) from rfl]
          rw [replaceScopeL_token_sep htw1 htw2 t _ (htoks t (List.mem_cons_self ..))]
          rw [ih fun x hx => htoks x (List.mem_cons_of_mem _ hx)]
          rfl

end TokenStep



/-- C3 counterexample: a selector token consisting of the scope class
followed by a pseudo-class suffix is not erased in its entirety — the regex
`\\S*{twClass}` only consumes non-space characters up to and through the
class name, so the suffix after the class survives: `.tw-abc:hover` rewrites
to `&:hover`, not to `&`. -/
theorem claimC3_counterexample :
    transformRules id "tw-abc"
        [CssNode.rule ".tw-abc:hover" (some [CssNode.decl "color" "red"])]
      = .ok [CssNode.rule "&:hover" (some [CssNode.decl "color" "red"])]
    ∧ ("&:hover" : String) ≠ "&" := by
  constructor
  · have hne : (id ".tw-abc:hover" : String) ≠ "." ++ "tw-abc" := by decide
    have hrw : replaceScope "tw-abc" ".tw-abc:hover" = "&:hover" := by decide
    have hne2 : ("&:hover" : String) ≠ "&" := by decide
    rw [transformRules]
    simp [hne, hrw, hne2, transformRules]
  · decide

/-- C3 (amended): for a container rule whose unescaped selector is not
exactly `.{scopeClass}` (and does not collapse to `&`), the selector is
rewritten token by token: in every whitespace-delimited token containing
`scopeClass`, the token's prefix up to and including the last occurrence of
`scopeClass` is replaced by the nesting marker `&` and the remainder of the
token (e.g. a pseudo-class suffix) is kept; tokens without the class are
unchanged; every occurrence across the whole selector is treated this way,
not only the first. -/
theorem claimC3_selector_rewrite (u : String → String) (tw sel : String)
    (tokens : List (List Char)) (cs rest cs2 rest2 : List CssNode)
    (htw1 : tw.data ≠ []) (htw2 : ∀ c ∈ tw.data, jsIsSpace c = false)
    (htoks : ∀ t ∈ tokens, ∀ c ∈ t, jsIsSpace c = false)
    (hsel : (u sel).data = joinTokens tokens)
    (hne : u sel ≠ "." ++ tw) (hamp : replaceScope tw (u sel) ≠ "&")
    (hcs : transformRules u tw cs = .ok cs2)
    (hrest : transformRules u tw rest = .ok rest2) :
    transformRules u tw (CssNode.rule sel (some cs) :: rest)
      = .ok (CssNode.rule (replaceScope tw (u sel)) (some cs2) :: rest2)
    ∧ (replaceScope tw (u sel)).data
        = joinTokens (tokens.map (rewriteToken tw.data)) := by
  constructor
  · rw [transformRules]
    simp [hne, hamp, hcs, hrest]
  · show replaceScopeL tw.data (u sel).data = _
    rw [hsel]
    exact replaceScopeL_joinTokens htw1 htw2 tokens htoks

/-- Witness for the amended C3: two tokens, the second containing the class
with a pseudo-class suffix, rewritten to `.group:hover &:active`. -/
theorem claimC3_selector_rewrite_witness :
    transformRules id "tw-abc"
        [CssNode.rule ".group:hover .tw-abc:active" (some [CssNode.decl "color" "red"])]
      = .ok [CssNode.rule (replaceScope "tw-abc" ".group:hover .tw-abc:active")
              (some [CssNode.decl "color" "red"])]
    ∧ (replaceScope "tw-abc" ".group:hover .tw-abc:active").data
        = joinTokens ([".group:hover".data, ".tw-abc:active".data].map
            (rewriteToken "tw-abc".data)) :=
  claimC3_selector_rewrite id "tw-abc" ".group:hover .tw-abc:active"
    [".group:hover".data, ".tw-abc:active".data] [CssNode.decl "color" "red"] []
    [CssNode.decl "color" "red"] []
    (by decide) (by decide) (by decide) (by decide) (by decide) (by decide)
    (by simp [transformRules]) (by simp [transformRules])



section SortTheory

variable {α : Type _} (lt : α → α → Bool)

end SortTheory



section ChainTheory

variable {α : Type _} (lt : α → α → Bool)

end ChainTheory



section CmpLemmas

/-- Cascade rank of a classification: declaration family, then rules, then
at-rules. -/
def kindRank : VKind → Nat
  | .declVariable => 0
  | .decl => 0
  | .declArray => 0
  | .rule => 1
  | .atRule => 2

end CmpLemmas



section NestedSpec

/-- Relation between a value before and after the nested pass of
`sortStyleObject`: non-object values are untouched, object values are
replaced by their (successful) recursive canonicalization. -/
def SortedVal (v v2 : SValue) : Prop :=
  (v2 = v ∧ ∀ o, v ≠ SValue.obj o) ∨
    ∃ o o2, v = SValue.obj o ∧ v2 = SValue.obj o2 ∧ sortStyleObject o = .ok o2

/-- Pointwise specification of the nested pass. -/
lemma sortNested_forall2 {es es2 : List (String × SValue)}
    (h : sortNested es = .ok es2) :
    List.Forall₂ (fun e e2 => e2.1 = e.1 ∧ SortedVal e.2 e2.2) es es2 := by
  induction es generalizing es2 with
  | nil => simp_all [sortNested]
  | cons e rest ih =>
      obtain ⟨k, v⟩ := e
      cases v with
      | obj o =>
          simp only [sortNested] at h
          cases ho : sortStyleObject o with
          | error m => simp [ho] at h
          | ok o2 =>
              cases hr : sortNested rest with
              | error m => simp [ho, hr] at h
              | ok rest2 =>
                  simp [ho, hr] at h
                  subst h
                  exact List.Forall₂.cons
                    ⟨rfl, Or.inr ⟨o, o2, rfl, rfl, ho⟩⟩ (ih hr)
      | str s =>
          simp only [sortNested] at h
          cases hr : sortNested rest with
          | error m => simp [hr] at h
          | ok rest2 =>
              simp [hr] at h
              subst h
              exact List.Forall₂.cons ⟨rfl, Or.inl ⟨rfl, by simp⟩⟩ (ih hr)
      | strArr a =>
          simp only [sortNested] at h
          cases hr : sortNested rest with
          | error m => simp [hr] at h
          | ok rest2 =>
              simp [hr] at h
              subst h
              exact List.Forall₂.cons ⟨rfl, Or.inl ⟨rfl, by simp⟩⟩ (ih hr)
      | num n =>
          simp only [sortNested] at h
          cases hr : sortNested rest with
          | error m => simp [hr] at h
          | ok rest2 =>
              simp [hr] at h
              subst h
              exact List.Forall₂.cons ⟨rfl, Or.inl ⟨rfl, by simp⟩⟩ (ih hr)

/-- Key-sequence preservation along the pointwise relation. -/
lemma forall2_map_fst {es es2 : List (String × SValue)}
    (h : List.Forall₂ (fun e e2 => e2.1 = e.1 ∧ SortedVal e.2 e2.2) es es2) :
    es2.map Prod.fst = es.map Prod.fst := by
  induction h with
  | nil => rfl
  | cons hrel _ ih => simp [ih, hrel.1]

/-- The nested pass preserves the key sequence. -/
lemma sortNested_map_fst {es es2 : List (String × SValue)}
    (h : sortNested es = .ok es2) : es2.map Prod.fst = es.map Prod.fst :=
  forall2_map_fst (sortNested_forall2 h)

end NestedSpec



section RankSorted

/-- Rank of an entry as its classification orders it (0 for the declaration
family, 1 for rules, 2 for at-rules; unclassifiable entries get 3 and never
occur in canonical output). -/
def entryRankB (k : String) (v : SValue) : Nat :=
  match getValueType k v with
  | .ok kd => kindRank kd
  | .error _ => 3

/-- Check that every entry's rank is at most the rank of every later entry:
all declaration-family entries precede all rules and at-rules, and all rules
precede all at-rules. -/
def rankPairsB : List (String × SValue) → Bool
  | [] => true
  | p :: rest =>
      rest.all (fun q => decide (entryRankB p.1 p.2 ≤ entryRankB q.1 q.2))
        && rankPairsB rest

mutual

/-- Rank-sortedness at this level and recursively inside every nested
structure value. -/
def allRankSorted (es : List (String × SValue)) : Bool :=
  rankPairsB es && allLevelsVals es

/-- Rank-sortedness inside every nested structure value of a level. -/
def allLevelsVals : List (String × SValue) → Bool
  | [] => true
  | (_, SValue.obj o) :: rest => allRankSorted o && allLevelsVals rest
  | _ :: rest => allLevelsVals rest

end

end RankSorted



end Tw
